import Mathlib

/-!
Verification development for the crypto trading dashboard frontend.

The definitions below are a shallow embedding of the client-side logic of
the repository: the magnitude-banded price formatter (`lib/utils.ts`,
`crypto-card.tsx`, `watchlist.tsx`), the two sparkline renderers
(`watchlist-sparkline.tsx` SVG variant and the canvas `SparklineChart`
variant), the market-overview fetch fallback logic of the two
`MarketOverview` variants, the data-collection history cap of
`handleCollectData`, and the watchlist synchronization handlers of
`sidebar.tsx` and `watchlist.tsx` (browser storage, in-memory state,
tracking sets, toasts and custom events).

JavaScript numbers are modelled as exact rationals; where the code can
produce the special values NaN and Infinity (the sparkline coordinate
arithmetic), a dedicated type `JNum` mirrors the IEEE special values so
that division by zero is observable, as in the source language.
-/

/-! ## Number rendering: `toLocaleString` with fraction-digit bounds

`price.toLocaleString(undefined, { minimumFractionDigits, maximumFractionDigits })`
for a non-negative price: round to `maximumFractionDigits` places
(half away from zero), drop trailing fractional zeros down to
`minimumFractionDigits`, and group the integer part with commas. -/

/-- The character of a decimal digit, `0 ↦ '0'`, ..., `9 ↦ '9'`. -/
def digitChar (d : ℕ) : Char := Char.ofNat (48 + d)

/-- Decimal digits of `n`, least significant first; fuel-driven so the
kernel can evaluate it. -/
def natDigitsRevAux : ℕ → ℕ → List ℕ
  | 0, _ => []
  | fuel+1, n => if n = 0 then [] else n % 10 :: natDigitsRevAux fuel (n / 10)

/-- Decimal digits of `n`, least significant first (`[]` for `0`). -/
def natDigitsRev (n : ℕ) : List ℕ := natDigitsRevAux n n

/-- Render a little-endian digit list as a big-endian character list with a
comma between each group of three digits (the default locale grouping). -/
def groupLEAux : ℕ → List ℕ → List Char
  | 0, _ => []
  | _, [] => []
  | fuel+1, d :: ds =>
      let rest := (d :: ds).drop 3
      let chunkChars := ((d :: ds).take 3).reverse.map digitChar
      if rest.isEmpty then chunkChars else groupLEAux fuel rest ++ ',' :: chunkChars

/-- Characters of the grouped integer part of a formatted number. -/
def intChars (n : ℕ) : List Char :=
  if n = 0 then ['0'] else groupLEAux (natDigitsRev n).length (natDigitsRev n)

/-- Pad a digit list with zeros on the left up to length `k`. -/
def padLeft (k : ℕ) (l : List ℕ) : List ℕ := List.replicate (k - l.length) 0 ++ l

/-- The `M` fraction digits (most significant first) of a fractional value
`fv < 10^M`. -/
def fracFull (M fv : ℕ) : List ℕ := padLeft M (natDigitsRev fv).reverse

/-- Drop trailing zeros from a digit list, but never below the first `m`
entries (`minimumFractionDigits`). -/
def stripTrailTo (m : ℕ) (l : List ℕ) : List ℕ :=
  l.take m ++ ((l.drop m).reverse.dropWhile (fun d => d == 0)).reverse

/-- `⌊q·10^M + 1/2⌋` as a natural number: `q` scaled to `M` fraction digits
and rounded half away from zero (the `Intl.NumberFormat` default rounding
for non-negative inputs), computed on the numerator and denominator. -/
def scaledRound (q : ℚ) (M : ℕ) : ℕ :=
  (Int.fdiv (2 * q.num * (10:ℤ)^M + (q.den : ℤ)) (2 * (q.den : ℤ))).toNat

/-- The rendered fraction digits of `q` under fraction-digit bounds
`m ≤ _ ≤ M`. -/
def fracDigitsOf (q : ℚ) (m M : ℕ) : List ℕ :=
  stripTrailTo m (fracFull M (scaledRound q M % 10^M))

/-- Model of `q.toLocaleString(undefined, { minimumFractionDigits := m,
maximumFractionDigits := M })` for non-negative `q`: grouped integer part,
then a dot and the fraction digits when there are any. -/
def jsToLocale (q : ℚ) (m M : ℕ) : String :=
  String.mk (intChars (scaledRound q M / 10^M) ++
    (if (fracDigitsOf q m M).isEmpty then [] else '.' :: (fracDigitsOf q m M).map digitChar))

/-- `formatPrice` from `src/crypto-frontend/src/lib/utils.ts` (lines 8-20):
fraction-digit bounds chosen by magnitude band. -/
def formatPrice (price : ℚ) : String :=
  if price ≥ 1000 then jsToLocale price 2 2
  else if price ≥ 1 then jsToLocale price 2 4
  else if price ≥ 0.01 then jsToLocale price 4 6
  else if price ≥ 0.0001 then jsToLocale price 6 8
  else jsToLocale price 8 10

/-- The file-local `formatPrice` of
`src/crypto-frontend/src/components/crypto-card.tsx` (lines 45-57). -/
def cryptoCardFormatPrice (price : ℚ) : String :=
  if price ≥ 1000 then jsToLocale price 2 2
  else if price ≥ 1 then jsToLocale price 2 4
  else if price ≥ 0.01 then jsToLocale price 4 6
  else if price ≥ 0.0001 then jsToLocale price 6 8
  else jsToLocale price 8 10

/-- The component-local `formatPrice` of
`src/crypto-frontend/src/components/watchlist.tsx` (lines 195-207). -/
def watchlistFormatPrice (price : ℚ) : String :=
  if price ≥ 1000 then jsToLocale price 2 2
  else if price ≥ 1 then jsToLocale price 2 4
  else if price ≥ 0.01 then jsToLocale price 4 6
  else if price ≥ 0.0001 then jsToLocale price 6 8
  else jsToLocale price 8 10

/-- Count of characters after the first `'.'` of a string (0 when there is
no dot): the number of rendered fraction digits. -/
def fractionDigitCount (s : String) : ℕ :=
  ((s.data.dropWhile (fun c => c != '.')).drop 1).length

/-! ## JavaScript numbers with special values

The sparkline renderers divide by `data.length - 1` and by the value range,
so their arithmetic can produce `NaN` and `±Infinity`. `JNum` carries these
special values explicitly; finite values are exact rationals. -/

/-- A JavaScript number: a finite rational or one of the special values. -/
inductive JNum where
  | fin : ℚ → JNum
  | posInf : JNum
  | negInf : JNum
  | nan : JNum
deriving DecidableEq

/-- JavaScript addition on `JNum`. -/
def jadd : JNum → JNum → JNum
  | .nan, _ => .nan
  | _, .nan => .nan
  | .fin a, .fin b => .fin (a + b)
  | .fin _, .posInf => .posInf
  | .posInf, .fin _ => .posInf
  | .fin _, .negInf => .negInf
  | .negInf, .fin _ => .negInf
  | .posInf, .posInf => .posInf
  | .negInf, .negInf => .negInf
  | .posInf, .negInf => .nan
  | .negInf, .posInf => .nan

/-- JavaScript negation on `JNum`. -/
def jneg : JNum → JNum
  | .nan => .nan
  | .fin a => .fin (-a)
  | .posInf => .negInf
  | .negInf => .posInf

/-- JavaScript subtraction on `JNum`. -/
def jsub (a b : JNum) : JNum := jadd a (jneg b)

/-- JavaScript multiplication on `JNum`. -/
def jmul : JNum → JNum → JNum
  | .nan, _ => .nan
  | _, .nan => .nan
  | .fin a, .fin b => .fin (a * b)
  | .fin a, .posInf => if a > 0 then .posInf else if a < 0 then .negInf else .nan
  | .posInf, .fin b => if b > 0 then .posInf else if b < 0 then .negInf else .nan
  | .fin a, .negInf => if a > 0 then .negInf else if a < 0 then .posInf else .nan
  | .negInf, .fin b => if b > 0 then .negInf else if b < 0 then .posInf else .nan
  | .posInf, .posInf => .posInf
  | .negInf, .negInf => .posInf
  | .posInf, .negInf => .negInf
  | .negInf, .posInf => .negInf

/-- JavaScript division on `JNum`; in particular `0 / 0 = NaN` and
`a / 0 = ±Infinity` for `a ≠ 0` (there is no negative zero here). -/
def jdiv : JNum → JNum → JNum
  | .nan, _ => .nan
  | _, .nan => .nan
  | .fin a, .fin b =>
      if b = 0 then (if a = 0 then .nan else if a > 0 then .posInf else .negInf)
      else .fin (a / b)
  | .fin _, .posInf => .fin 0
  | .fin _, .negInf => .fin 0
  | .posInf, .fin b => if b ≥ 0 then .posInf else .negInf
  | .negInf, .fin b => if b ≥ 0 then .negInf else .posInf
  | .posInf, .posInf => .nan
  | .posInf, .negInf => .nan
  | .negInf, .posInf => .nan
  | .negInf, .negInf => .nan

/-- The JavaScript `<` comparison on numbers (false whenever NaN is
involved). -/
def jlt : JNum → JNum → Bool
  | .nan, _ => false
  | _, .nan => false
  | .fin a, .fin b => a < b
  | .fin _, .posInf => true
  | .fin _, .negInf => false
  | .posInf, _ => false
  | .negInf, .negInf => false
  | .negInf, _ => true

/-- `Math.min(...l)` : `+Infinity` on the empty list. -/
def jsMin : List ℚ → JNum
  | [] => .posInf
  | a :: as => .fin (as.foldl min a)

/-- `Math.max(...l)` : `-Infinity` on the empty list. -/
def jsMax : List ℚ → JNum
  | [] => .negInf
  | a :: as => .fin (as.foldl max a)

/-- JavaScript `x || 1`: falsy values (`0` and `NaN`) are replaced by `1`. -/
def jsOr1 (x : JNum) : JNum := if x = JNum.fin 0 ∨ x = JNum.nan then JNum.fin 1 else x

/-- The rational minimum of a non-empty list, matching `jsMin`. -/
def minQ (a : ℚ) (as : List ℚ) : ℚ := as.foldl min a

/-- The rational maximum of a non-empty list, matching `jsMax`. -/
def maxQ (a : ℚ) (as : List ℚ) : ℚ := as.foldl max a

/-- The `(x, y)` coordinates computed by `WatchlistSparkline`
(`src/crypto-frontend/src/components/watchlist-sparkline.tsx`, lines
10-25): when `data` is empty a placeholder series is used (randomly
generated in the source, passed here as `placeholder`); the range is
`max - min || 1`; point `i` is
`((i / (n - 1)) * width, height - ((v - min) / range) * height)`. -/
def watchlistSparklinePoints (data placeholder : List ℚ) (width height : ℚ) :
    List (JNum × JNum) :=
  let chartData := if data.length > 0 then data else placeholder
  let mn := jsMin chartData
  let mx := jsMax chartData
  let range := jsOr1 (jsub mx mn)
  chartData.mapIdx fun index value =>
    (jmul (jdiv (.fin index) (.fin ((chartData.length : ℚ) - 1))) (.fin width),
     jsub (.fin height) (jmul (jdiv (jsub (.fin value) mn) range) (.fin height)))

/-- The points stroked by the canvas `SparklineChart`
(`src/unnamed/part_002`, lines 14-57): `step = width / (data.length - 1)`,
`scale = height / (max - min || 1)`; the path starts with
`moveTo(0, height - (data[0] - min) * scale)` and continues with
`lineTo(i * step, height - (data[i] - min) * scale)` for `i ≥ 1`. -/
def sparklineChartPoints (data : List ℚ) (width height : ℚ) : List (JNum × JNum) :=
  let step := jdiv (.fin width) (.fin ((data.length : ℚ) - 1))
  let mn := jsMin data
  let mx := jsMax data
  let range := jsOr1 (jsub mx mn)
  let scale := jdiv (.fin height) range
  (List.range data.length).map fun (i : ℕ) =>
    (if i = 0 then JNum.fin 0 else jmul (.fin (i : ℚ)) step,
     jsub (.fin height) (jmul (jsub (.fin (data.getD i 0)) mn) scale))

/-! ## Market overview fetch with static fallback

Two `MarketOverview` variants exist (`src/unnamed/part_000` and
`src/unnamed/part_001`). Both fetch `/api/market-overview`; on a non-ok
response or a thrown error the `catch` sets a hard-coded static price
list, and an empty or non-array payload takes the same fallback in the
`else` branch. -/

/-- A market-overview price record (`symbol`, `price`, `change24h`). -/
structure CryptoPrice where
  symbol : String
  price : ℚ
  change24h : ℚ
deriving DecidableEq

/-- A market-overview record with attached sparkline series (variant of
`src/unnamed/part_001`, which decorates each record). -/
structure CryptoPriceS where
  symbol : String
  price : ℚ
  change24h : ℚ
  sparklineData : List ℚ
deriving DecidableEq

/-- Outcome of one market-overview request: non-ok HTTP status, a thrown
error, or a JSON payload (`none` models a non-array payload). -/
inductive FetchOutcome where
  | notOk : FetchOutcome
  | threw : FetchOutcome
  | payload : Option (List CryptoPrice) → FetchOutcome
deriving DecidableEq

/-- Whether the fetch counts as failed for the fallback logic: anything
except an array payload with at least one element
(`Array.isArray(data) && data.length > 0`). -/
def fetchFailed : FetchOutcome → Bool
  | .payload (some (_ :: _)) => false
  | _ => true

/-- The hard-coded static sample list of `src/unnamed/part_000`
(lines 107-117 and 122-132). -/
def marketFallbackA : List CryptoPrice :=
  [⟨"BTC/USDT", 68245.32, 2.5⟩,
   ⟨"ETH/USDT", 3421.15, 1.8⟩,
   ⟨"SOL/USDT", 142.87, -0.7⟩,
   ⟨"XRP/USDT", 0.5423, -1.2⟩,
   ⟨"ADA/USDT", 0.6791, -3.7⟩,
   ⟨"DOGE/USDT", 0.1724, 5.3⟩,
   ⟨"SHIB/USDT", 0.00002341, -1.2⟩,
   ⟨"PEPE/USDT", 0.00000098, 4.5⟩,
   ⟨"MATIC/USDT", 0.5723, 0.8⟩]

/-- The hard-coded static sample list of `src/unnamed/part_001`
(lines 118-131 and 136-149); each entry carries sparkline data produced by
`generateRandomSparkline(change24h)`, passed here as the oracle `gen`. -/
def marketFallbackB (gen : ℚ → List ℚ) : List CryptoPriceS :=
  [⟨"BTC/USDT", 68245.32, 2.5, gen 2.5⟩,
   ⟨"ETH/USDT", 3421.15, 1.8, gen 1.8⟩,
   ⟨"SOL/USDT", 142.87, -0.7, gen (-0.7)⟩,
   ⟨"XRP/USDT", 0.5423, -1.2, gen (-1.2)⟩,
   ⟨"ADA/USDT", 0.6791, -3.7, gen (-3.7)⟩,
   ⟨"DOGE/USDT", 0.1724, 5.3, gen 5.3⟩,
   ⟨"SHIB/USDT", 0.00002341, -1.2, gen (-1.2)⟩,
   ⟨"PEPE/USDT", 0.00000098, 4.5, gen 4.5⟩,
   ⟨"MATIC/USDT", 0.5723, 0.8, gen 0.8⟩,
   ⟨"LINK/USDT", 14.59, -1.35, gen (-1.35)⟩,
   ⟨"UNI/USDT", 7.82, -0.9, gen (-0.9)⟩,
   ⟨"AAVE/USDT", 168.28, -0.5, gen (-0.5)⟩]

/-- The price list set by `fetchPrices` of `src/unnamed/part_000`
(lines 86-136): the payload when it is a non-empty array, the static
fallback otherwise (including the `catch` branch). -/
def fetchPricesA : FetchOutcome → List CryptoPrice
  | .payload (some (p :: ps)) => p :: ps
  | _ => marketFallbackA

/-- The price list set by `fetchPrices` of `src/unnamed/part_001`
(lines 92-153): payload records are decorated with
`generateRandomSparkline(coin.change24h)` (oracle `gen`); on failure the
static fallback is used. -/
def fetchPricesB (gen : ℚ → List ℚ) : FetchOutcome → List CryptoPriceS
  | .payload (some (p :: ps)) =>
      (p :: ps).map fun coin => ⟨coin.symbol, coin.price, coin.change24h, gen coin.change24h⟩
  | _ => marketFallbackB gen

/-! ## Data-collection history (`handleCollectData`)

`src/crypto-frontend/src/components/watchlist-sparkline.tsx` (the
`DataCollectionDialog` document, lines 476-503 of the concatenated file):
on a successful collection request one history item per selected coin is
created, prepended to the existing history, and the result is truncated to
20 entries before being written back to `localStorage` under
`dataCollectionHistory`. -/

/-- One persisted data-collection history entry. -/
structure HistoryItem where
  symbol : String
  timestamp : String
  market_data : ℕ
  technical_features : ℕ
  signals : ℕ
  news : ℕ
deriving DecidableEq

/-- The `results` object of a collection response (`data.results` may be
absent, and each count defaults to 0 via `|| 0`). -/
structure CollectResults where
  market_data : ℕ
  technical_features : ℕ
  signals : ℕ
  news : ℕ
deriving DecidableEq

/-- `data.results?.f || 0` for each count field. -/
def resultCounts (results : Option CollectResults) : ℕ × ℕ × ℕ × ℕ :=
  match results with
  | none => (0, 0, 0, 0)
  | some r => (r.market_data, r.technical_features, r.signals, r.news)

/-- The freshly created history items: one per selected coin, all sharing
the request timestamp and the response counts. -/
def mkHistoryItems (selectedCoins : List String) (timestamp : String)
    (results : Option CollectResults) : List HistoryItem :=
  selectedCoins.map fun symbol =>
    ⟨symbol, timestamp, (resultCounts results).1, (resultCounts results).2.1,
     (resultCounts results).2.2.1, (resultCounts results).2.2.2⟩

/-- The history written back to browser storage:
`[...historyItems, ...existingHistory].slice(0, 20)`. -/
def updateHistory (selectedCoins : List String) (timestamp : String)
    (results : Option CollectResults) (existingHistory : List HistoryItem) :
    List HistoryItem :=
  (mkHistoryItems selectedCoins timestamp results ++ existingHistory).take 20

/-! ## Watchlist synchronization (`sidebar.tsx` and `watchlist.tsx`)

One combined client state covers the sidebar component (in-memory
`watchlistSymbols`, the `addedSymbols` ref) and the watchlist component
(in-memory `watchlistSymbols`, `cryptos`, the `removedSymbols` ref and the
`preventRefresh` flag), together with the shared browser storage keys
`crypto-trader-watchlist` and `crypto-trader-watchlist-updated`, the toast
log and the dispatched `watchlistUpdated` events. Backend calls are
parameterised by their outcome. -/

/-- A toast notification; `destructive` is the error variant. -/
structure Toast where
  title : String
  description : String
  destructive : Bool
deriving DecidableEq

/-- The `action` field of a `watchlistUpdated` event payload. -/
inductive WatchAction where
  | add : WatchAction
  | remove : WatchAction
deriving DecidableEq

/-- Outcome of a `POST /api/watchlist/add` or `/remove` call: parsed
response with `success: true`, parsed response with `success: false`
carrying an optional `message`, or a thrown error. -/
inductive ApiOutcome where
  | ok : ApiOutcome
  | rejected : Option String → ApiOutcome
  | threw : ApiOutcome
deriving DecidableEq

/-- The combined client-visible watchlist state. -/
structure ClientState where
  storage : Option (List String)
  updateTs : Option ℕ
  sidebarSymbols : List String
  addedSymbols : List String
  watchSymbols : List String
  removedSymbols : List String
  cryptos : List String
  preventRefresh : Bool
  toasts : List Toast
  events : List (String × WatchAction)
deriving DecidableEq

/-- The state of a fresh browser session: empty storage and empty
component state. -/
def initialState : ClientState :=
  ⟨none, none, [], [], [], [], [], false, [], []⟩

/-- `Set.add`: insertion-ordered, no duplicates. -/
def setInsert (x : String) (s : List String) : List String :=
  if x ∈ s then s else s ++ [x]

/-- `Set.delete`. -/
def setErase (x : String) (s : List String) : List String :=
  s.filter (· ≠ x)

/-- `[...new Set(l)]`: deduplicate keeping first occurrences. -/
def jsDedup (l : List String) : List String :=
  l.foldl (fun acc x => if x ∈ acc then acc else acc ++ [x]) []

/-- JavaScript `m || d` on an optional string: `undefined` and the empty
string are falsy. -/
def jsOrStr (m : Option String) (d : String) : String :=
  match m with
  | some s => if s = "" then d else s
  | none => d

/-- `symbol.split("/")[0]`. -/
def baseSym (s : String) : String := String.mk (s.data.takeWhile (· ≠ '/'))

/-- The sidebar's initial `fetchWatchlistSymbols` (`sidebar.tsx`, lines
69-100): on success the response is stored verbatim in browser storage and
the in-memory list becomes the deduplicated union with `addedSymbols`; on
failure the in-memory list is loaded from storage (empty when absent). -/
def sidebarFetch (resp : Option (List String)) (st : ClientState) : ClientState :=
  match resp with
  | some data =>
      { st with storage := some data,
                sidebarSymbols := jsDedup (data ++ st.addedSymbols) }
  | none =>
      match st.storage with
      | some stored => { st with sidebarSymbols := stored }
      | none => { st with sidebarSymbols := [] }

/-- The sidebar's `addToWatchlist` handler (`sidebar.tsx`, lines 108-209):
guard on the in-memory state, optimistic append to the tracking set, the
in-memory list and the stored list, then confirmation or rollback by
backend outcome. `now` and `now2` are the two `Date.now()` readings. -/
def sidebarAdd (symbol : String) (now now2 : ℕ) (o : ApiOutcome)
    (st : ClientState) : ClientState :=
  let x := symbol ++ "/USDT"
  if x ∈ st.sidebarSymbols ∨ x ∈ st.addedSymbols then
    { st with toasts := st.toasts ++
        [⟨"Already in watchlist", symbol ++ " is already in your watchlist", false⟩] }
  else
    let st1 := { st with
      addedSymbols := setInsert x st.addedSymbols,
      sidebarSymbols := st.sidebarSymbols ++ [x],
      storage := some (st.storage.getD [] ++ [x]),
      updateTs := some now }
    match o with
    | .ok =>
        { st1 with
          toasts := st1.toasts ++
            [⟨"Added to watchlist", symbol ++ " has been added to your watchlist", false⟩],
          events := st1.events ++ [(x, WatchAction.add)],
          updateTs := some now2 }
    | .rejected msg =>
        { st1 with
          toasts := st1.toasts ++
            [⟨"Error", jsOrStr msg "Failed to add to watchlist", true⟩],
          addedSymbols := setErase x st1.addedSymbols,
          sidebarSymbols := st1.sidebarSymbols.filter (· ≠ x),
          storage := some ((st1.storage.getD []).filter (· ≠ x)) }
    | .threw =>
        { st1 with
          toasts := st1.toasts ++ [⟨"Error", "Failed to add to watchlist", true⟩],
          addedSymbols := setErase x st1.addedSymbols,
          sidebarSymbols := st1.sidebarSymbols.filter (· ≠ x),
          storage := some ((st1.storage.getD []).filter (· ≠ x)) }

/-- One market-overview entry as consumed by the watchlist's `fetchData`. -/
structure MarketEntry where
  symbol : String
  price : ℚ
  change24h : ℚ
deriving DecidableEq

/-- The part of the watchlist's `fetchData` after `currentSymbols` is
known (`watchlist.tsx`, lines 88-128): filter out recently removed
symbols, store the result in the in-memory list, then display market data
(`mkt`, where `none` models a thrown error or non-ok response), with
removed symbols filtered once more. -/
def watchlistFetchBody (currentSymbols : List String)
    (mkt : Option (List MarketEntry)) (st : ClientState) : ClientState :=
  let filteredSymbols := currentSymbols.filter (fun s => s ∉ st.removedSymbols)
  let st1 := { st with watchSymbols := filteredSymbols }
  if filteredSymbols.isEmpty then { st1 with cryptos := [] }
  else
    match mkt with
    | some (d :: ds) =>
        let processed := (d :: ds).map fun e => baseSym e.symbol
        let finalData := processed.filter (fun b => (b ++ "/USDT") ∉ st1.removedSymbols)
        { st1 with cryptos := finalData }
    | some [] => { st1 with cryptos := [] }
    | none => { st1 with cryptos := [] }

/-- The watchlist's `fetchData` (`watchlist.tsx`, lines 57-136): skip when
`preventRefresh` and not forced; read symbols from storage, else fetch them
(`symResp`, written back to storage verbatim on success, `catch` on
failure); then proceed with `watchlistFetchBody`. -/
def watchlistFetch (force : Bool) (symResp : Option (List String))
    (mkt : Option (List MarketEntry)) (st : ClientState) : ClientState :=
  if st.preventRefresh ∧ ¬ force then st
  else
    match st.storage with
    | some currentSymbols => watchlistFetchBody currentSymbols mkt st
    | none =>
        match symResp with
        | some fetched =>
            watchlistFetchBody fetched mkt { st with storage := some fetched }
        | none => { st with cryptos := [] }

/-- The watchlist's `removeFromWatchlist` handler (`watchlist.tsx`, lines
215-298), up to and including the synchronous success/failure handling:
optimistic removal from the tracking set, the displayed list, the in-memory
list and the stored list; on success a toast, a `watchlistUpdated` remove
event whose sidebar listener (`sidebar.tsx`, lines 46-58) synchronously
filters the sidebar list and the stored list again; on failure an error
toast and removal of the symbol from the tracking set only (the deferred
`fetchData` runs later and does not restore storage). -/
def watchlistRemove (symbol : String) (now : ℕ) (o : ApiOutcome)
    (st : ClientState) : ClientState :=
  let x := symbol ++ "/USDT"
  let st1 := { st with
    preventRefresh := true,
    removedSymbols := setInsert x st.removedSymbols,
    cryptos := st.cryptos.filter (· ≠ symbol),
    watchSymbols := st.watchSymbols.filter (· ≠ x),
    storage := some ((st.storage.getD []).filter (· ≠ x)),
    updateTs := some now }
  match o with
  | .ok =>
      let st2 : ClientState := { st1 with
        toasts := st1.toasts ++
          [⟨"Removed from watchlist", symbol ++ " has been removed from your watchlist", false⟩],
        events := st1.events ++ [(x, WatchAction.remove)] }
      { st2 with
        sidebarSymbols := st2.sidebarSymbols.filter (· ≠ x),
        storage := some ((st2.storage.getD []).filter (· ≠ x)) }
  | .rejected msg =>
      { st1 with
        toasts := st1.toasts ++
          [⟨"Error", jsOrStr msg "Failed to remove from watchlist", true⟩],
        removedSymbols := setErase x st1.removedSymbols }
  | .threw =>
      { st1 with
        toasts := st1.toasts ++ [⟨"Error", "Failed to remove from watchlist", true⟩],
        removedSymbols := setErase x st1.removedSymbols }

/-- The delayed reset of the `preventRefresh` flag (`watchlist.tsx`, lines
294-296). -/
def resetPreventRefresh (st : ClientState) : ClientState :=
  { st with preventRefresh := false }

/-- States reachable from a fresh session by any sequence of watchlist
operations: the initial fetch-and-store of either component, adds, removes
(with their synchronous event handling) and refreshes, with arbitrary
backend responses. -/
inductive Reachable : ClientState → Prop where
  | init : Reachable initialState
  | sfetch {s} (resp : Option (List String)) :
      Reachable s → Reachable (sidebarFetch resp s)
  | sadd {s} (symbol : String) (now now2 : ℕ) (o : ApiOutcome) :
      Reachable s → Reachable (sidebarAdd symbol now now2 o s)
  | wfetch {s} (force : Bool) (symResp : Option (List String))
      (mkt : Option (List MarketEntry)) :
      Reachable s → Reachable (watchlistFetch force symResp mkt s)
  | wremove {s} (symbol : String) (now : ℕ) (o : ApiOutcome) :
      Reachable s → Reachable (watchlistRemove symbol now o s)
  | wreset {s} : Reachable s → Reachable (resetPreventRefresh s)

/-- A concrete state used to exhibit a duplicate in the persisted list:
the sidebar's initial fetch fails while storage is empty, the watchlist
then fetches and stores `["BTC/USDT"]`, and the sidebar (whose in-memory
list is still empty) adds BTC. -/
def dupState : ClientState :=
  sidebarAdd "BTC" 0 0 ApiOutcome.ok
    (watchlistFetch true (some ["BTC/USDT"]) none (sidebarFetch none initialState))

/-- A concrete pre-add state whose persisted list already contains
`BTC/USDT` while the in-memory sidebar state does not. -/
def preAddState : ClientState :=
  { initialState with storage := some ["BTC/USDT"] }

/-- A concrete state displaying BTC, for the remove-failure analysis. -/
def preRemoveState : ClientState :=
  { initialState with
    storage := some ["BTC/USDT"],
    watchSymbols := ["BTC/USDT"],
    cryptos := ["BTC"] }

/-- The value range used by both renderers, at the rational level:
`max - min || 1` for a non-empty sample list `a :: as`. -/
def rangeQ (a : ℚ) (as : List ℚ) : ℚ :=
  if maxQ a as - minQ a as = 0 then 1 else maxQ a as - minQ a as

/-! ## Helper lemmas: digits, grouping and fraction-digit counting -/

theorem natDigitsRevAux_lt : ∀ fuel n d, d ∈ natDigitsRevAux fuel n → d < 10 := by
  intro fuel
  induction fuel with
  | zero => intro n d h; simp [natDigitsRevAux] at h
  | succ fuel ih =>
      intro n d h
      simp only [natDigitsRevAux] at h
      split at h
      · simp at h
      · rcases List.mem_cons.mp h with h | h
        · exact h ▸ Nat.mod_lt _ (by norm_num)
        · exact ih _ _ h

theorem natDigitsRevAux_length_le : ∀ fuel n k, n < 10 ^ k →
    (natDigitsRevAux fuel n).length ≤ k := by
  intro fuel
  induction fuel with
  | zero => intro n k _; simp [natDigitsRevAux]
  | succ fuel ih =>
      intro n k h
      simp only [natDigitsRevAux]
      split
      · simp
      · cases k with
        | zero => simp at h; omega
        | succ k =>
            have hd : n / 10 < 10 ^ k :=
              (Nat.div_lt_iff_lt_mul (by norm_num)).mpr (by rw [← pow_succ]; exact h)
            simpa using Nat.succ_le_succ (ih _ _ hd)

theorem digitChar_ne_dot (d : ℕ) (h : d < 10) : digitChar d ≠ '.' := by
  unfold digitChar
  interval_cases d <;> decide

theorem groupLEAux_mem : ∀ fuel ds c, c ∈ groupLEAux fuel ds →
    c = ',' ∨ ∃ d, d ∈ ds ∧ c = digitChar d := by
  intro fuel
  induction fuel with
  | zero => intro ds c h; simp [groupLEAux] at h
  | succ fuel ih =>
      intro ds c h
      match ds with
      | [] => simp [groupLEAux] at h
      | d :: ds' =>
          simp only [groupLEAux] at h
          split at h
          · rcases List.mem_map.mp h with ⟨e, he, rfl⟩
            exact Or.inr ⟨e, List.take_subset _ _ (List.mem_reverse.mp he), rfl⟩
          · rcases List.mem_append.mp h with h | h
            · rcases ih _ _ h with h | ⟨e, he, rfl⟩
              · exact Or.inl h
              · exact Or.inr ⟨e, List.drop_subset _ _ he, rfl⟩
            · rcases List.mem_cons.mp h with rfl | h
              · exact Or.inl rfl
              · rcases List.mem_map.mp h with ⟨e, he, rfl⟩
                exact Or.inr ⟨e, List.take_subset _ _ (List.mem_reverse.mp he), rfl⟩

theorem intChars_no_dot (n : ℕ) : '.' ∉ intChars n := by
  unfold intChars
  split
  · decide
  · intro h
    rcases groupLEAux_mem _ _ _ h with h | ⟨d, hd, hc⟩
    · exact absurd h (by decide)
    · exact digitChar_ne_dot d (natDigitsRevAux_lt _ _ _ hd) hc.symm

theorem dropWhile_append_all {p : Char → Bool} :
    ∀ (a b : List Char), (∀ x ∈ a, p x = true) →
    (a ++ b).dropWhile p = b.dropWhile p := by
  intro a
  induction a with
  | nil => intro b _; rfl
  | cons x xs ih =>
      intro b h
      rw [List.cons_append, List.dropWhile_cons, if_pos (h x (by simp))]
      exact ih b fun y hy => h y (by simp [hy])

theorem fdc_of_split (a b : List Char) (ha : '.' ∉ a) :
    fractionDigitCount (String.mk (a ++ '.' :: b)) = b.length := by
  show ((List.dropWhile _ (a ++ '.' :: b)).drop 1).length = b.length
  rw [dropWhile_append_all a ('.' :: b)
        (fun x hx => bne_iff_ne.mpr (ne_of_mem_of_not_mem hx ha)),
      List.dropWhile_cons]
  simp

theorem fdc_no_dot (a : List Char) (ha : '.' ∉ a) :
    fractionDigitCount (String.mk a) = 0 := by
  show ((List.dropWhile _ a).drop 1).length = 0
  rw [List.dropWhile_eq_nil_iff.mpr
        (fun x hx => bne_iff_ne.mpr (ne_of_mem_of_not_mem hx ha))]
  rfl

theorem fracFull_length (M fv : ℕ) (h : fv < 10 ^ M) : (fracFull M fv).length = M := by
  have hlen : (natDigitsRev fv).length ≤ M := natDigitsRevAux_length_le _ _ _ h
  unfold fracFull padLeft
  simp only [List.length_append, List.length_replicate, List.length_reverse]
  omega

theorem stripTrailTo_length_le (m : ℕ) (l : List ℕ) :
    (stripTrailTo m l).length ≤ l.length := by
  unfold stripTrailTo
  have h1 : ((l.drop m).reverse.dropWhile (fun d => d == 0)).length ≤ (l.drop m).length := by
    have h2 := (List.dropWhile_sublist (l := (l.drop m).reverse) (fun d => d == 0)).length_le
    simpa using h2
  simp only [List.length_append, List.length_take, List.length_reverse, List.length_drop] at h1 ⊢
  omega

theorem le_stripTrailTo_length (m : ℕ) (l : List ℕ) (h : m ≤ l.length) :
    m ≤ (stripTrailTo m l).length := by
  unfold stripTrailTo
  simp only [List.length_append, List.length_take]
  omega

theorem fracDigitsOf_length_le (q : ℚ) (m M : ℕ) :
    (fracDigitsOf q m M).length ≤ M := by
  unfold fracDigitsOf
  have h := stripTrailTo_length_le m (fracFull M (scaledRound q M % 10 ^ M))
  rwa [fracFull_length _ _ (Nat.mod_lt _ (by positivity))] at h

theorem le_fracDigitsOf_length (q : ℚ) (m M : ℕ) (h : m ≤ M) :
    m ≤ (fracDigitsOf q m M).length := by
  unfold fracDigitsOf
  exact le_stripTrailTo_length _ _
    (by rw [fracFull_length _ _ (Nat.mod_lt _ (by positivity))]; exact h)

theorem fdc_jsToLocale (q : ℚ) (m M : ℕ) :
    fractionDigitCount (jsToLocale q m M) = (fracDigitsOf q m M).length := by
  unfold jsToLocale
  split
  · next hemp =>
      rw [List.append_nil, fdc_no_dot _ (intChars_no_dot _),
          List.isEmpty_iff.mp hemp]
      rfl
  · rw [fdc_of_split _ _ (intChars_no_dot _), List.length_map]

/-! ## Claims about the price formatter -/

unseal Rat.ofScientific in
/-- C1: for every non-negative price `p`, `formatPrice p` renders `p` with a
fraction-digit count determined by magnitude band (`≥ 1000` exactly 2;
`[1, 1000)` between 2 and 4; `[0.01, 1)` between 4 and 6;
`[0.0001, 0.01)` between 6 and 8; below `0.0001` between 8 and 10); in
particular `formatPrice 1500.5 = "1,500.50"`, `formatPrice 0.005623` has 6
fraction digits, and `formatPrice 0.00000098` has 8-10 fraction digits and
is not the string `"0.00"`. -/
theorem c1_formatPrice_bands (p : ℚ) (hp : 0 ≤ p) :
    (p ≥ 1000 → fractionDigitCount (formatPrice p) = 2) ∧
    (1 ≤ p ∧ p < 1000 →
      2 ≤ fractionDigitCount (formatPrice p) ∧ fractionDigitCount (formatPrice p) ≤ 4) ∧
    (0.01 ≤ p ∧ p < 1 →
      4 ≤ fractionDigitCount (formatPrice p) ∧ fractionDigitCount (formatPrice p) ≤ 6) ∧
    (0.0001 ≤ p ∧ p < 0.01 →
      6 ≤ fractionDigitCount (formatPrice p) ∧ fractionDigitCount (formatPrice p) ≤ 8) ∧
    (p < 0.0001 →
      8 ≤ fractionDigitCount (formatPrice p) ∧ fractionDigitCount (formatPrice p) ≤ 10) ∧
    formatPrice 1500.5 = "1,500.50" ∧
    fractionDigitCount (formatPrice 0.005623) = 6 ∧
    8 ≤ fractionDigitCount (formatPrice 0.00000098) ∧
    fractionDigitCount (formatPrice 0.00000098) ≤ 10 ∧
    formatPrice 0.00000098 ≠ "0.00" := by
  refine ⟨?_, ?_, ?_, ?_, ?_, by decide, by decide, by decide, by decide, by decide⟩
  · intro h1
    rw [formatPrice, if_pos h1, fdc_jsToLocale]
    exact le_antisymm (fracDigitsOf_length_le _ _ _) (le_fracDigitsOf_length _ _ _ le_rfl)
  · rintro ⟨h1, h2⟩
    rw [formatPrice, if_neg (by exact fun h => absurd h (not_le.mpr h2)), if_pos h1,
        fdc_jsToLocale]
    exact ⟨le_fracDigitsOf_length _ _ _ (by norm_num), fracDigitsOf_length_le _ _ _⟩
  · rintro ⟨h1, h2⟩
    rw [formatPrice, if_neg (by intro h; nlinarith), if_neg (not_le.mpr h2), if_pos h1,
        fdc_jsToLocale]
    exact ⟨le_fracDigitsOf_length _ _ _ (by norm_num), fracDigitsOf_length_le _ _ _⟩
  · rintro ⟨h1, h2⟩
    rw [formatPrice, if_neg (by intro h; nlinarith), if_neg (by intro h; nlinarith),
        if_neg (not_le.mpr h2), if_pos h1, fdc_jsToLocale]
    exact ⟨le_fracDigitsOf_length _ _ _ (by norm_num), fracDigitsOf_length_le _ _ _⟩
  · intro h2
    rw [formatPrice, if_neg (by intro h; nlinarith), if_neg (by intro h; nlinarith),
        if_neg (by intro h; nlinarith), if_neg (not_le.mpr h2), fdc_jsToLocale]
    exact ⟨le_fracDigitsOf_length _ _ _ (by norm_num), fracDigitsOf_length_le _ _ _⟩

/-- Witness for C1 at the concrete inputs 1500.5 and 0.005. -/
theorem c1_formatPrice_bands_witness :
    fractionDigitCount (formatPrice 1500.5) = 2 ∧
    8 ≤ fractionDigitCount (formatPrice 0.00000098) :=
  ⟨(c1_formatPrice_bands 1500.5 (by norm_num)).1 (by norm_num),
   ((((((c1_formatPrice_bands 0.00000098 (by norm_num)).2).2).2).2).1
      (by norm_num)).1⟩

/-- C10: the three price-formatting implementations (`formatPrice` in
`lib/utils.ts`, the file-local one in `crypto-card.tsx` and the
component-local one in `watchlist.tsx`) are extensionally equal. -/
theorem c10_formatPrice_agree (p : ℚ) :
    cryptoCardFormatPrice p = formatPrice p ∧ watchlistFormatPrice p = formatPrice p :=
  ⟨rfl, rfl⟩

/-! ## Claims about the market-overview fallback and the history cap -/

/-- C4: whenever the market-overview fetch fails (non-ok status, thrown
error, or empty/invalid payload), both `MarketOverview` variants set the
price list, in the same handling pass, to their hard-coded static sample
list, whose length lies between 9 and 12 symbols inclusive. -/
theorem c4_market_fallback (o : FetchOutcome) (gen : ℚ → List ℚ)
    (h : fetchFailed o = true) :
    fetchPricesA o = marketFallbackA ∧
    9 ≤ marketFallbackA.length ∧ marketFallbackA.length ≤ 12 ∧
    fetchPricesB gen o = marketFallbackB gen ∧
    9 ≤ (marketFallbackB gen).length ∧ (marketFallbackB gen).length ≤ 12 := by
  have hA : marketFallbackA.length = 9 := rfl
  have hB : (marketFallbackB gen).length = 12 := rfl
  refine ⟨?_, by omega, by omega, ?_, by omega, by omega⟩ <;>
    (cases o with
     | notOk => rfl
     | threw => rfl
     | payload d =>
         cases d with
         | none => rfl
         | some l =>
             cases l with
             | nil => rfl
             | cons p ps => simp [fetchFailed] at h)

/-- Witness for C4 at a concrete failed fetch. -/
theorem c4_market_fallback_witness :
    fetchPricesA FetchOutcome.notOk = marketFallbackA ∧
    9 ≤ marketFallbackA.length :=
  ⟨(c4_market_fallback FetchOutcome.notOk (fun _ => []) rfl).1,
   (c4_market_fallback FetchOutcome.notOk (fun _ => []) rfl).2.1⟩

/-- C5: after every successful data-collection request the history written
back under `dataCollectionHistory` has length at most 20, with the newly
created entries placed before the pre-existing entries and everything
beyond the 20th entry discarded. -/
theorem c5_history_cap (sel : List String) (ts : String)
    (res : Option CollectResults) (old : List HistoryItem) (i : ℕ) :
    (updateHistory sel ts res old).length ≤ 20 ∧
    (updateHistory sel ts res old)[i]? =
      (if i < 20 then
        (if i < sel.length then (mkHistoryItems sel ts res)[i]?
         else old[i - sel.length]?)
       else none) := by
  have hm : (mkHistoryItems sel ts res).length = sel.length := by simp [mkHistoryItems]
  constructor
  · simp [updateHistory]
  · unfold updateHistory
    by_cases h20 : i < 20
    · rw [List.getElem?_take_of_lt h20]
      by_cases hs : i < sel.length
      · rw [List.getElem?_append_left (by omega), if_pos h20, if_pos hs]
      · rw [List.getElem?_append_right (by omega), if_pos h20, if_neg hs, hm]
    · rw [if_neg h20]
      apply List.getElem?_eq_none
      have := List.length_take 20 (mkHistoryItems sel ts res ++ old)
      omega

/-! ## Helper lemmas: watchlist state operations -/

theorem filter_ne_of_not_mem (x : String) (l : List String) (h : x ∉ l) :
    l.filter (· ≠ x) = l := by
  apply List.filter_eq_self.mpr
  intro a ha
  exact decide_eq_true (ne_of_mem_of_not_mem ha h)

theorem filter_ne_append_singleton (x : String) (l : List String) (h : x ∉ l) :
    (l ++ [x]).filter (· ≠ x) = l := by
  rw [List.filter_append, filter_ne_of_not_mem x l h]
  simp

theorem setErase_setInsert (x : String) (s : List String) (h : x ∉ s) :
    setErase x (setInsert x s) = s := by
  unfold setInsert setErase
  rw [if_neg h]
  exact filter_ne_append_singleton x s h

theorem watchlistRemove_storage (sym : String) (n : ℕ) (o : ApiOutcome)
    (st : ClientState) :
    (watchlistRemove sym n o st).storage =
      some ((st.storage.getD []).filter (· ≠ sym ++ "/USDT")) := by
  unfold watchlistRemove
  cases o <;> simp [List.filter_filter]

theorem watchlistFetchBody_storage (cs : List String)
    (mkt : Option (List MarketEntry)) (st : ClientState) :
    (watchlistFetchBody cs mkt st).storage = st.storage := by
  dsimp only [watchlistFetchBody]
  split
  · rfl
  · split <;> rfl

/-! ## Claims about watchlist synchronization -/

/-- C2 counterexample: when the persisted list already contains
`BTC/USDT` while the sidebar's in-memory state does not, add-then-remove
does not restore it: the remove filters out both copies. -/
theorem c2_add_remove_cex :
    (watchlistRemove "BTC" 2 ApiOutcome.ok
        (sidebarAdd "BTC" 0 1 ApiOutcome.ok preAddState)).storage.getD [] ≠
      preAddState.storage.getD [] := by decide

/-- C2 (amended): if `s/USDT` is not already in the persisted list, the
sidebar add operation (which appends it) followed immediately by the
watchlist remove operation (which filters it out) leaves the persisted
watchlist list unchanged, whatever the backend outcomes. -/
theorem c2_add_remove (st : ClientState) (sym : String)
    (n1 n2 n3 : ℕ) (o1 o2 : ApiOutcome)
    (h : sym ++ "/USDT" ∉ st.storage.getD []) :
    (watchlistRemove sym n3 o2 (sidebarAdd sym n1 n2 o1 st)).storage.getD [] =
      st.storage.getD [] := by
  rw [watchlistRemove_storage, Option.getD_some]
  dsimp only [sidebarAdd]
  split
  · exact filter_ne_of_not_mem _ _ h
  · cases o1 with
    | ok =>
        simp only [Option.getD_some]
        exact filter_ne_append_singleton _ _ h
    | rejected msg =>
        simp only [Option.getD_some]
        rw [filter_ne_append_singleton _ _ h, filter_ne_of_not_mem _ _ h]
    | threw =>
        simp only [Option.getD_some]
        rw [filter_ne_append_singleton _ _ h, filter_ne_of_not_mem _ _ h]

/-- Witness for C2 (amended) at a fresh session. -/
theorem c2_add_remove_witness :
    (watchlistRemove "BTC" 2 ApiOutcome.ok
        (sidebarAdd "BTC" 0 1 ApiOutcome.ok initialState)).storage.getD [] =
      initialState.storage.getD [] :=
  c2_add_remove initialState "BTC" 0 1 2 ApiOutcome.ok ApiOutcome.ok (by decide)

/-- C3 counterexample: after a failed remove the persisted list is not
restored to its pre-mutation state — the failure handler only restores the
tracking set. -/
theorem c3_rollback_cex :
    (watchlistRemove "BTC" 0 (ApiOutcome.rejected none) preRemoveState).storage.getD []
      ≠ preRemoveState.storage.getD [] := by decide

/-- C3 (amended): on backend failure of a watchlist ADD whose guard passed
and whose symbol was not already persisted, the failure handler restores
the in-memory list, the tracking set and the persisted list, and raises a
destructive toast. On backend failure of a watchlist REMOVE, the failure
handler restores the tracking set and raises a destructive toast, but the
in-memory list, the displayed list and the persisted list retain the
removal. -/
theorem c3_failure_rollback (st : ClientState) (sym : String) :
    (∀ (n1 n2 : ℕ) (o : ApiOutcome), o ≠ ApiOutcome.ok →
      sym ++ "/USDT" ∉ st.sidebarSymbols →
      sym ++ "/USDT" ∉ st.addedSymbols →
      sym ++ "/USDT" ∉ st.storage.getD [] →
      (sidebarAdd sym n1 n2 o st).sidebarSymbols = st.sidebarSymbols ∧
      (sidebarAdd sym n1 n2 o st).addedSymbols = st.addedSymbols ∧
      (sidebarAdd sym n1 n2 o st).storage.getD [] = st.storage.getD [] ∧
      ∃ d, (sidebarAdd sym n1 n2 o st).toasts = st.toasts ++ [⟨"Error", d, true⟩]) ∧
    (∀ (n : ℕ) (o : ApiOutcome), o ≠ ApiOutcome.ok →
      sym ++ "/USDT" ∉ st.removedSymbols →
      (watchlistRemove sym n o st).removedSymbols = st.removedSymbols ∧
      (∃ d, (watchlistRemove sym n o st).toasts = st.toasts ++ [⟨"Error", d, true⟩]) ∧
      (watchlistRemove sym n o st).storage.getD [] =
        (st.storage.getD []).filter (· ≠ sym ++ "/USDT") ∧
      (watchlistRemove sym n o st).watchSymbols =
        st.watchSymbols.filter (· ≠ sym ++ "/USDT") ∧
      (watchlistRemove sym n o st).cryptos = st.cryptos.filter (· ≠ sym)) := by
  constructor
  · intro n1 n2 o ho hs ha hst
    have hguard : ¬ (sym ++ "/USDT" ∈ st.sidebarSymbols ∨ sym ++ "/USDT" ∈ st.addedSymbols) := by
      rintro (h | h) <;> [exact hs h; exact ha h]
    cases o with
    | ok => exact absurd rfl ho
    | rejected msg =>
        dsimp only [sidebarAdd]
        rw [if_neg hguard]
        simp only [Option.getD_some]
        exact ⟨filter_ne_append_singleton _ _ hs,
               setErase_setInsert _ _ ha,
               filter_ne_append_singleton _ _ hst,
               jsOrStr msg "Failed to add to watchlist", rfl⟩
    | threw =>
        dsimp only [sidebarAdd]
        rw [if_neg hguard]
        simp only [Option.getD_some]
        exact ⟨filter_ne_append_singleton _ _ hs,
               setErase_setInsert _ _ ha,
               filter_ne_append_singleton _ _ hst,
               "Failed to add to watchlist", rfl⟩
  · intro n o ho hr
    cases o with
    | ok => exact absurd rfl ho
    | rejected msg =>
        dsimp only [watchlistRemove]
        exact ⟨setErase_setInsert _ _ hr,
               ⟨jsOrStr msg "Failed to remove from watchlist", rfl⟩, rfl, rfl, rfl⟩
    | threw =>
        dsimp only [watchlistRemove]
        exact ⟨setErase_setInsert _ _ hr,
               ⟨"Failed to remove from watchlist", rfl⟩, rfl, rfl, rfl⟩

/-- Witness for C3 (amended) at a fresh session with a thrown add and a
thrown remove. -/
theorem c3_failure_rollback_witness :
    (sidebarAdd "BTC" 0 0 ApiOutcome.threw initialState).addedSymbols =
        initialState.addedSymbols ∧
    (watchlistRemove "BTC" 0 ApiOutcome.threw initialState).removedSymbols =
        initialState.removedSymbols :=
  ⟨(((c3_failure_rollback initialState "BTC").1 0 0 ApiOutcome.threw
      (by decide) (by decide) (by decide) (by decide)).2).1,
   ((c3_failure_rollback initialState "BTC").2 0 ApiOutcome.threw
      (by decide) (by decide)).1⟩

theorem nodup_append_singleton (x : String) (l : List String)
    (hl : l.Nodup) (hx : x ∉ l) : (l ++ [x]).Nodup := by
  rw [List.nodup_append]
  exact ⟨hl, List.nodup_singleton x,
    fun a ha hax => hx ((List.mem_singleton.mp hax) ▸ ha)⟩

/-- C9 counterexample: a state reachable by watchlist operations whose
persisted list contains `BTC/USDT` twice — the sidebar's fetch fails, the
watchlist stores the backend list, and the sidebar (whose in-memory state
is still empty) appends the symbol again. -/
theorem c9_unique_cex :
    Reachable dupState ∧ ¬ (dupState.storage.getD []).Nodup :=
  ⟨Reachable.sadd "BTC" 0 0 ApiOutcome.ok
      (Reachable.wfetch true (some ["BTC/USDT"]) none
        (Reachable.sfetch none Reachable.init)),
   by decide⟩

/-- C9 (amended): each watchlist operation preserves uniqueness of the
persisted list, provided every stored fetch response is itself
duplicate-free and an added symbol is not already in the persisted list;
without those provisos the invariant fails (see the counterexample). -/
theorem c9_unique_preservation :
    (∀ (st : ClientState) (sym : String) (n : ℕ) (o : ApiOutcome),
      (st.storage.getD []).Nodup →
      ((watchlistRemove sym n o st).storage.getD []).Nodup) ∧
    (∀ (st : ClientState) (sym : String) (n1 n2 : ℕ) (o : ApiOutcome),
      (st.storage.getD []).Nodup →
      sym ++ "/USDT" ∉ st.storage.getD [] →
      ((sidebarAdd sym n1 n2 o st).storage.getD []).Nodup) ∧
    (∀ (st : ClientState) (resp : Option (List String)),
      (st.storage.getD []).Nodup →
      (∀ d, resp = some d → d.Nodup) →
      ((sidebarFetch resp st).storage.getD []).Nodup) ∧
    (∀ (st : ClientState) (force : Bool) (symResp : Option (List String))
        (mkt : Option (List MarketEntry)),
      (st.storage.getD []).Nodup →
      (∀ d, symResp = some d → d.Nodup) →
      ((watchlistFetch force symResp mkt st).storage.getD []).Nodup) ∧
    (∀ st : ClientState, (st.storage.getD []).Nodup →
      ((resetPreventRefresh st).storage.getD []).Nodup) := by
  refine ⟨?_, ?_, ?_, ?_, fun st h => h⟩
  · intro st sym n o h
    rw [watchlistRemove_storage]
    exact h.filter _
  · intro st sym n1 n2 o h hx
    dsimp only [sidebarAdd]
    split
    · exact h
    · cases o with
      | ok => exact nodup_append_singleton _ _ h hx
      | rejected msg => exact (nodup_append_singleton _ _ h hx).filter _
      | threw => exact (nodup_append_singleton _ _ h hx).filter _
  · intro st resp h hd
    cases resp with
    | some d => exact hd d rfl
    | none =>
        dsimp only [sidebarFetch]
        split <;> exact h
  · intro st force symResp mkt h hd
    dsimp only [watchlistFetch]
    split
    · exact h
    · split
      · rw [watchlistFetchBody_storage]
        exact h
      · cases symResp with
        | some fetched =>
            rw [watchlistFetchBody_storage]
            exact hd fetched rfl
        | none => exact h

/-- Witness for C9 (amended) at a fresh session. -/
theorem c9_unique_preservation_witness :
    ((watchlistRemove "BTC" 0 ApiOutcome.ok initialState).storage.getD []).Nodup :=
  c9_unique_preservation.1 initialState "BTC" 0 ApiOutcome.ok (by decide)

/-! ## Helper lemmas: JNum arithmetic and list extrema -/

theorem jsub_fin (a b : ℚ) : jsub (.fin a) (.fin b) = .fin (a - b) := by
  simp [jsub, jadd, jneg, sub_eq_add_neg]

theorem jmul_fin (a b : ℚ) : jmul (.fin a) (.fin b) = .fin (a * b) := rfl

theorem jdiv_fin (a b : ℚ) (hb : b ≠ 0) : jdiv (.fin a) (.fin b) = .fin (a / b) := by
  simp [jdiv, hb]

theorem jsOr1_fin (d : ℚ) : jsOr1 (.fin d) = .fin (if d = 0 then 1 else d) := by
  by_cases hd : d = 0 <;> simp [jsOr1, hd]

theorem jlt_fin (a b : ℚ) : jlt (.fin a) (.fin b) = decide (a < b) := rfl

theorem jsMin_cons (a : ℚ) (as : List ℚ) : jsMin (a :: as) = .fin (minQ a as) := rfl

theorem jsMax_cons (a : ℚ) (as : List ℚ) : jsMax (a :: as) = .fin (maxQ a as) := rfl

theorem rangeJ_eq (a : ℚ) (as : List ℚ) :
    jsOr1 (jsub (jsMax (a :: as)) (jsMin (a :: as))) = .fin (rangeQ a as) := by
  rw [jsMax_cons, jsMin_cons, jsub_fin, jsOr1_fin, rangeQ]

theorem minQ_cons (a b : ℚ) (bs : List ℚ) : minQ a (b :: bs) = minQ (min a b) bs := rfl

theorem maxQ_cons (a b : ℚ) (bs : List ℚ) : maxQ a (b :: bs) = maxQ (max a b) bs := rfl

theorem minQ_le_head : ∀ (as : List ℚ) (a : ℚ), minQ a as ≤ a := by
  intro as
  induction as with
  | nil => intro a; exact le_refl a
  | cons b bs ih =>
      intro a
      rw [minQ_cons]
      exact le_trans (ih (min a b)) (min_le_left a b)

theorem le_maxQ_head : ∀ (as : List ℚ) (a : ℚ), a ≤ maxQ a as := by
  intro as
  induction as with
  | nil => intro a; exact le_refl a
  | cons b bs ih =>
      intro a
      rw [maxQ_cons]
      exact le_trans (le_max_left a b) (ih (max a b))

theorem minQ_le : ∀ (as : List ℚ) (a v : ℚ), v ∈ a :: as → minQ a as ≤ v := by
  intro as
  induction as with
  | nil =>
      intro a v hv
      rw [List.mem_singleton.mp hv]
      exact minQ_le_head [] a
  | cons b bs ih =>
      intro a v hv
      rw [minQ_cons]
      rcases List.mem_cons.mp hv with h1 | hv2
      · rw [h1]
        exact le_trans (minQ_le_head bs (min a b)) (min_le_left a b)
      · rcases List.mem_cons.mp hv2 with h1 | h3
        · rw [h1]
          exact le_trans (minQ_le_head bs (min a b)) (min_le_right a b)
        · exact ih (min a b) v (List.mem_cons_of_mem _ h3)

theorem le_maxQ : ∀ (as : List ℚ) (a v : ℚ), v ∈ a :: as → v ≤ maxQ a as := by
  intro as
  induction as with
  | nil =>
      intro a v hv
      rw [List.mem_singleton.mp hv]
      exact le_maxQ_head [] a
  | cons b bs ih =>
      intro a v hv
      rw [maxQ_cons]
      rcases List.mem_cons.mp hv with h1 | hv2
      · rw [h1]
        exact le_trans (le_max_left a b) (le_maxQ_head bs (max a b))
      · rcases List.mem_cons.mp hv2 with h1 | h3
        · rw [h1]
          exact le_trans (le_max_right a b) (le_maxQ_head bs (max a b))
        · exact ih (max a b) v (List.mem_cons_of_mem _ h3)

theorem minQ_all_eq : ∀ (as : List ℚ) (a c : ℚ), a = c → (∀ v ∈ as, v = c) →
    minQ a as = c := by
  intro as
  induction as with
  | nil => intro a c ha _; exact ha
  | cons b bs ih =>
      intro a c ha hall
      rw [minQ_cons]
      exact ih _ _ (by rw [ha, hall b (by simp), min_self])
        (fun v hv => hall v (by simp [hv]))

theorem maxQ_all_eq : ∀ (as : List ℚ) (a c : ℚ), a = c → (∀ v ∈ as, v = c) →
    maxQ a as = c := by
  intro as
  induction as with
  | nil => intro a c ha _; exact ha
  | cons b bs ih =>
      intro a c ha hall
      rw [maxQ_cons]
      exact ih _ _ (by rw [ha, hall b (by simp), max_self])
        (fun v hv => hall v (by simp [hv]))

theorem min_affine (k b x y : ℚ) (hk : 0 < k) :
    min (k * x + b) (k * y + b) = k * min x y + b := by
  rcases le_total x y with hxy | hxy
  · rw [min_eq_left hxy, min_eq_left]
    exact add_le_add_right (mul_le_mul_of_nonneg_left hxy hk.le) b
  · rw [min_eq_right hxy, min_eq_right]
    exact add_le_add_right (mul_le_mul_of_nonneg_left hxy hk.le) b

theorem max_affine (k b x y : ℚ) (hk : 0 < k) :
    max (k * x + b) (k * y + b) = k * max x y + b := by
  rcases le_total x y with hxy | hxy
  · rw [max_eq_right hxy, max_eq_right]
    exact add_le_add_right (mul_le_mul_of_nonneg_left hxy hk.le) b
  · rw [max_eq_left hxy, max_eq_left]
    exact add_le_add_right (mul_le_mul_of_nonneg_left hxy hk.le) b

theorem minQ_affine (k b : ℚ) (hk : 0 < k) : ∀ (as : List ℚ) (a : ℚ),
    minQ (k * a + b) (as.map (fun v => k * v + b)) = k * minQ a as + b := by
  intro as
  induction as with
  | nil => intro a; rfl
  | cons x xs ih =>
      intro a
      rw [List.map_cons, minQ_cons, min_affine k b a x hk, ih (min a x), minQ_cons]

theorem maxQ_affine (k b : ℚ) (hk : 0 < k) : ∀ (as : List ℚ) (a : ℚ),
    maxQ (k * a + b) (as.map (fun v => k * v + b)) = k * maxQ a as + b := by
  intro as
  induction as with
  | nil => intro a; rfl
  | cons x xs ih =>
      intro a
      rw [List.map_cons, maxQ_cons, max_affine k b a x hk, ih (max a x), maxQ_cons]

theorem rangeQ_def (a : ℚ) (as : List ℚ) :
    (if maxQ a as - minQ a as = 0 then 1 else maxQ a as - minQ a as) = rangeQ a as := rfl

theorem rangeQ_ne_zero (a : ℚ) (as : List ℚ) : rangeQ a as ≠ 0 := by
  unfold rangeQ
  split
  · exact one_ne_zero
  · assumption

theorem mapIdx_pair_fst {α β γ : Type} : ∀ (l : List α) (F : ℕ → β) (G : ℕ → α → γ),
    (l.mapIdx (fun i v => (F i, G i v))).map Prod.fst = (List.range l.length).map F := by
  intro l
  induction l with
  | nil => intro F G; rfl
  | cons a l ih =>
      intro F G
      rw [List.mapIdx_cons, List.map_cons, List.length_cons, List.range_succ_eq_map,
          List.map_cons, List.map_map]
      exact congrArg (F 0 :: ·) (ih (F ∘ Nat.succ) (fun i v => G (i + 1) v))

theorem mapIdx_map {α β γ : Type} (φ : α → β) : ∀ (l : List α) (f : ℕ → β → γ),
    (l.map φ).mapIdx f = l.mapIdx (fun i v => f i (φ v)) := by
  intro l
  induction l with
  | nil => intro f; rfl
  | cons a l ih =>
      intro f
      rw [List.map_cons, List.mapIdx_cons, List.mapIdx_cons, ih]

theorem getElem?_mapIdx {α β : Type} : ∀ (l : List α) (f : ℕ → α → β) (i : ℕ),
    (l.mapIdx f)[i]? = (l[i]?).map (f i) := by
  intro l
  induction l with
  | nil => intro f i; simp
  | cons a l ih =>
      intro f i
      rw [List.mapIdx_cons]
      cases i with
      | zero => simp
      | succ i =>
          simp only [List.getElem?_cons_succ]
          exact ih (fun j v => f (j + 1) v) i

theorem watchlistSparklinePoints_eq (a : ℚ) (as ph : List ℚ) (w h : ℚ)
    (hd : (((a :: as).length : ℚ) - 1) ≠ 0) :
    watchlistSparklinePoints (a :: as) ph w h =
      (a :: as).mapIdx (fun i v =>
        (JNum.fin ((i / (((a :: as).length : ℚ) - 1)) * w),
         JNum.fin (h - ((v - minQ a as) / rangeQ a as) * h))) := by
  have hr : rangeQ a as ≠ 0 := rangeQ_ne_zero a as
  dsimp only [watchlistSparklinePoints]
  rw [if_pos (by simp : (a :: as).length > 0)]
  simp only [jsMin_cons, jsMax_cons, jsub_fin, jsOr1_fin, rangeQ_def]
  rw [List.mapIdx_eq_enum_map, List.mapIdx_eq_enum_map]
  apply List.map_congr_left
  intro x _
  obtain ⟨i, v⟩ := x
  simp only [Function.uncurry]
  rw [jdiv_fin _ _ hd, jmul_fin, jdiv_fin _ _ hr, jmul_fin, jsub_fin]

theorem sparklineChartPoints_eq (a : ℚ) (as : List ℚ) (w h : ℚ)
    (hd : (((a :: as).length : ℚ) - 1) ≠ 0) :
    sparklineChartPoints (a :: as) w h =
      (List.range (a :: as).length).map (fun (i : ℕ) =>
        (JNum.fin ((i : ℚ) * (w / (((a :: as).length : ℚ) - 1))),
         JNum.fin (h - (((a :: as).getD i 0 - minQ a as) / rangeQ a as) * h))) := by
  have hr : rangeQ a as ≠ 0 := rangeQ_ne_zero a as
  dsimp only [sparklineChartPoints]
  simp only [jsMin_cons, jsMax_cons, jsub_fin, jsOr1_fin, rangeQ_def]
  apply List.map_congr_left
  intro i _
  rw [jdiv_fin _ _ hr, jdiv_fin _ _ hd]
  by_cases hi0 : i = 0
  · subst hi0
    rw [if_pos rfl, jmul_fin, jsub_fin]
    refine Prod.ext (by norm_num) ?_
    show JNum.fin _ = JNum.fin _
    congr 1
    ring
  · rw [if_neg hi0, jmul_fin, jmul_fin, jsub_fin]
    refine Prod.ext rfl ?_
    show JNum.fin _ = JNum.fin _
    congr 1
    ring

/-! ## Claims about the sparkline renderers -/

/-- C6: for a non-empty input whose samples are all equal, both renderers
take the value range to be 1 (`max - min || 1`), and every produced
y-coordinate is the finite number `height` — all identical, no NaN from a
zero range. -/
theorem c6_constant_input (data : List ℚ) (c : ℚ) (placeholder : List ℚ) (w h : ℚ)
    (hne : data ≠ []) (hall : ∀ v ∈ data, v = c) :
    jsOr1 (jsub (jsMax data) (jsMin data)) = JNum.fin 1 ∧
    (∀ p ∈ watchlistSparklinePoints data placeholder w h, p.2 = JNum.fin h) ∧
    (∀ p ∈ sparklineChartPoints data w h, p.2 = JNum.fin h) := by
  obtain ⟨a, as, rfl⟩ := List.exists_cons_of_ne_nil hne
  have hmin : minQ a as = c :=
    minQ_all_eq as a c (hall a (by simp)) (fun v hv => hall v (by simp [hv]))
  have hmax : maxQ a as = c :=
    maxQ_all_eq as a c (hall a (by simp)) (fun v hv => hall v (by simp [hv]))
  have hrange1 : rangeQ a as = 1 := by
    unfold rangeQ
    rw [hmin, hmax, sub_self, if_pos rfl]
  have hrange : jsOr1 (jsub (jsMax (a :: as)) (jsMin (a :: as))) = JNum.fin 1 := by
    rw [rangeJ_eq, hrange1]
  refine ⟨hrange, ?_, ?_⟩
  · intro p hp
    dsimp only [watchlistSparklinePoints] at hp
    rw [if_pos (by simp : (a :: as).length > 0)] at hp
    simp only [jsMin_cons, jsMax_cons, jsub_fin, jsOr1_fin, rangeQ_def, hrange1] at hp
    rw [List.mapIdx_eq_enum_map] at hp
    rcases List.mem_map.mp hp with ⟨⟨i, v⟩, hx, rfl⟩
    have hv : v = c := by
      have hmem := List.mem_enum hx
      exact hall v (hmem.2 ▸ List.getElem_mem hmem.1)
    simp only [Function.uncurry]
    rw [hv, hmin, sub_self, jdiv_fin 0 1 one_ne_zero, jmul_fin, jsub_fin]
    norm_num
  · intro p hp
    dsimp only [sparklineChartPoints] at hp
    simp only [jsMin_cons, jsMax_cons, jsub_fin, jsOr1_fin, rangeQ_def, hrange1] at hp
    rcases List.mem_map.mp hp with ⟨i, hi, rfl⟩
    have hv : (a :: as).getD i 0 = c := by
      have hi2 : i < (a :: as).length := List.mem_range.mp hi
      rw [List.getD_eq_getElem?_getD, List.getElem?_eq_getElem hi2]
      exact hall _ (List.getElem_mem hi2)
    dsimp only
    rw [hv, hmin, sub_self, jdiv_fin _ _ one_ne_zero, jmul_fin, jsub_fin]
    norm_num

/-- Witness for C6 at the concrete input `[1, 1, 1]`. -/
theorem c6_constant_input_witness :
    jsOr1 (jsub (jsMax [1, 1, 1]) (jsMin [1, 1, 1])) = JNum.fin 1 :=
  (c6_constant_input [1, 1, 1] 1 [] 80 20 (by decide) (by decide)).1

unseal Rat.add Rat.sub Rat.mul Rat.inv in
/-- C7 (evaluation at the failing input): for the single-sample input
`[5]` with the default dimensions, the canvas `SparklineChart` emits the
single well-defined point `(0, height)`, but `WatchlistSparkline` computes
`x = (0 / 0) * width = NaN`, so a NaN coordinate reaches its output — it
has no guard on the division by `n - 1`. -/
theorem c7_single_sample_eval :
    watchlistSparklinePoints [5] [] 80 20 = [(JNum.nan, JNum.fin 20)] ∧
    sparklineChartPoints [5] 80 30 = [(JNum.fin 0, JNum.fin 30)] :=
  ⟨by decide, by decide⟩

unseal Rat.add Rat.sub Rat.mul Rat.inv in
/-- C8 counterexample: the affine transform `v ↦ (-1)·v + 0` changes the
produced coordinates of the SVG renderer on the input `[0, 1]`, so shape
invariance fails for arbitrary affine transforms. -/
theorem c8_affine_cex :
    watchlistSparklinePoints ([0, 1].map (fun v => (-1) * v + 0)) [] 80 20 ≠
      watchlistSparklinePoints [0, 1] [] 80 20 := by decide

theorem rangeQ_affine (k b : ℚ) (hk : 0 < k) (a : ℚ) (as : List ℚ) :
    rangeQ (k * a + b) (as.map (fun v => k * v + b)) =
      if maxQ a as - minQ a as = 0 then 1 else k * (maxQ a as - minQ a as) := by
  unfold rangeQ
  rw [minQ_affine k b hk, maxQ_affine k b hk,
      show k * maxQ a as + b - (k * minQ a as + b) = k * (maxQ a as - minQ a as) by ring]
  by_cases hc : maxQ a as - minQ a as = 0
  · rw [if_pos (by rw [hc, mul_zero]), if_pos hc]
  · rw [if_neg (mul_ne_zero hk.ne' hc), if_neg hc]

theorem y_coord_affine (k b : ℚ) (hk : 0 < k) (a v : ℚ) (as : List ℚ)
    (hv : v ∈ a :: as) (h : ℚ) :
    h - ((k * v + b - minQ (k * a + b) (as.map (fun u => k * u + b))) /
          rangeQ (k * a + b) (as.map (fun u => k * u + b))) * h
      = h - ((v - minQ a as) / rangeQ a as) * h := by
  rw [minQ_affine k b hk, rangeQ_affine k b hk]
  by_cases hc : maxQ a as - minQ a as = 0
  · have hmm : maxQ a as = minQ a as := by linarith
    have hvm : v = minQ a as :=
      le_antisymm (hmm ▸ le_maxQ as a v hv) (minQ_le as a v hv)
    rw [if_pos hc]
    unfold rangeQ
    rw [if_pos hc,
        show k * v + b - (k * minQ a as + b) = k * (v - minQ a as) by ring,
        hvm, sub_self, mul_zero]
  · rw [if_neg hc]
    unfold rangeQ
    rw [if_neg hc,
        show k * v + b - (k * minQ a as + b) = k * (v - minQ a as) by ring,
        mul_div_mul_left _ _ hk.ne']

theorem y_coord_lt (a : ℚ) (as : List ℚ) (h : ℚ) (hh : 0 < h) (vi vj : ℚ)
    (hvi : vi ∈ a :: as) (hvj : vj ∈ a :: as) (hlt : vj < vi) :
    h - ((vi - minQ a as) / rangeQ a as) * h <
      h - ((vj - minQ a as) / rangeQ a as) * h := by
  have hr0 : 0 < maxQ a as - minQ a as := by
    have h1 := le_maxQ as a vi hvi
    have h2 := minQ_le as a vj hvj
    linarith
  have hrq : rangeQ a as = maxQ a as - minQ a as := by
    unfold rangeQ
    rw [if_neg (ne_of_gt hr0)]
  apply sub_lt_sub_left
  apply mul_lt_mul_of_pos_right _ hh
  rw [hrq]
  exact (div_lt_div_iff_of_pos_right hr0).mpr (by linarith)

theorem pointsA_affine (a : ℚ) (as ph : List ℚ) (w h k b : ℚ)
    (hd : (((a :: as).length : ℚ) - 1) ≠ 0) (hk : 0 < k) :
    watchlistSparklinePoints ((a :: as).map (fun v => k * v + b)) ph w h =
      watchlistSparklinePoints (a :: as) ph w h := by
  have hmap : (a :: as).map (fun v => k * v + b)
      = (k * a + b) :: as.map (fun v => k * v + b) := List.map_cons _ _ _
  have hd2 : ((((k * a + b) :: as.map (fun v => k * v + b)).length : ℚ) - 1) ≠ 0 := by
    simpa using hd
  rw [hmap, watchlistSparklinePoints_eq _ _ _ _ _ hd2,
      watchlistSparklinePoints_eq a as ph w h hd, ← hmap, mapIdx_map]
  simp only [List.length_map]
  rw [List.mapIdx_eq_enum_map, List.mapIdx_eq_enum_map]
  apply List.map_congr_left
  rintro ⟨i, v⟩ hx
  have hv : v ∈ a :: as := by
    have hmem := List.mem_enum hx
    exact hmem.2 ▸ List.getElem_mem hmem.1
  simp only [Function.uncurry]
  refine Prod.ext rfl ?_
  show JNum.fin _ = JNum.fin _
  congr 1
  exact y_coord_affine k b hk a v as hv h

theorem pointsB_affine (a : ℚ) (as : List ℚ) (w h k b : ℚ)
    (hd : (((a :: as).length : ℚ) - 1) ≠ 0) (hk : 0 < k) :
    sparklineChartPoints ((a :: as).map (fun v => k * v + b)) w h =
      sparklineChartPoints (a :: as) w h := by
  have hmap : (a :: as).map (fun v => k * v + b)
      = (k * a + b) :: as.map (fun v => k * v + b) := List.map_cons _ _ _
  have hd2 : ((((k * a + b) :: as.map (fun v => k * v + b)).length : ℚ) - 1) ≠ 0 := by
    simpa using hd
  rw [hmap, sparklineChartPoints_eq _ _ _ _ hd2,
      sparklineChartPoints_eq a as w h hd, ← hmap]
  simp only [List.length_map]
  apply List.map_congr_left
  intro i hi
  have hi2 : i < (a :: as).length := List.mem_range.mp hi
  refine Prod.ext rfl ?_
  show JNum.fin _ = JNum.fin _
  congr 1
  rw [List.getD_eq_getElem?_getD, List.getElem?_map, List.getElem?_eq_getElem hi2,
      List.getD_eq_getElem?_getD ((a :: as)) i 0, List.getElem?_eq_getElem hi2]
  exact y_coord_affine k b hk a ((a :: as)[i]) as (List.getElem_mem hi2) h

theorem pointsA_x (a : ℚ) (as ph : List ℚ) (w h : ℚ)
    (hd : (((a :: as).length : ℚ) - 1) ≠ 0) :
    (watchlistSparklinePoints (a :: as) ph w h).map Prod.fst =
      (List.range (a :: as).length).map
        (fun (i : ℕ) => JNum.fin ((i : ℚ) * (w / (((a :: as).length : ℚ) - 1)))) := by
  rw [watchlistSparklinePoints_eq a as ph w h hd, mapIdx_pair_fst]
  apply List.map_congr_left
  intro i _
  congr 1
  rw [div_mul_eq_mul_div, mul_div_assoc]

theorem pointsB_x (a : ℚ) (as : List ℚ) (w h : ℚ)
    (hd : (((a :: as).length : ℚ) - 1) ≠ 0) :
    (sparklineChartPoints (a :: as) w h).map Prod.fst =
      (List.range (a :: as).length).map
        (fun (i : ℕ) => JNum.fin ((i : ℚ) * (w / (((a :: as).length : ℚ) - 1)))) := by
  rw [sparklineChartPoints_eq a as w h hd, List.map_map]
  rfl

theorem pointsA_y_lt (a : ℚ) (as ph : List ℚ) (w h : ℚ)
    (hd : (((a :: as).length : ℚ) - 1) ≠ 0) (hh : 0 < h)
    (i j : ℕ) (vi vj : ℚ) (pi pj : JNum × JNum)
    (hvi : (a :: as)[i]? = some vi) (hvj : (a :: as)[j]? = some vj)
    (hlt : vj < vi)
    (hpi : (watchlistSparklinePoints (a :: as) ph w h)[i]? = some pi)
    (hpj : (watchlistSparklinePoints (a :: as) ph w h)[j]? = some pj) :
    jlt pi.2 pj.2 = true := by
  rw [watchlistSparklinePoints_eq a as ph w h hd, getElem?_mapIdx, hvi] at hpi
  rw [watchlistSparklinePoints_eq a as ph w h hd, getElem?_mapIdx, hvj] at hpj
  simp only [Option.map_some'] at hpi hpj
  rw [← Option.some_inj.mp hpi, ← Option.some_inj.mp hpj]
  rw [jlt_fin]
  exact decide_eq_true (y_coord_lt a as h hh vi vj
    (List.getElem?_mem hvi) (List.getElem?_mem hvj) hlt)

theorem pointsB_y_lt (a : ℚ) (as : List ℚ) (w h : ℚ)
    (hd : (((a :: as).length : ℚ) - 1) ≠ 0) (hh : 0 < h)
    (i j : ℕ) (vi vj : ℚ) (pi pj : JNum × JNum)
    (hvi : (a :: as)[i]? = some vi) (hvj : (a :: as)[j]? = some vj)
    (hlt : vj < vi)
    (hpi : (sparklineChartPoints (a :: as) w h)[i]? = some pi)
    (hpj : (sparklineChartPoints (a :: as) w h)[j]? = some pj) :
    jlt pi.2 pj.2 = true := by
  have hi2 : i < (a :: as).length := by
    by_contra hcon
    rw [List.getElem?_eq_none (le_of_not_lt hcon)] at hvi
    exact Option.noConfusion hvi
  have hj2 : j < (a :: as).length := by
    by_contra hcon
    rw [List.getElem?_eq_none (le_of_not_lt hcon)] at hvj
    exact Option.noConfusion hvj
  rw [sparklineChartPoints_eq a as w h hd, List.getElem?_map,
      List.getElem?_range hi2] at hpi
  rw [sparklineChartPoints_eq a as w h hd, List.getElem?_map,
      List.getElem?_range hj2] at hpj
  simp only [Option.map_some'] at hpi hpj
  rw [← Option.some_inj.mp hpi, ← Option.some_inj.mp hpj]
  have hgi : (a :: as).getD i 0 = vi := by
    rw [List.getD_eq_getElem?_getD, hvi]
    rfl
  have hgj : (a :: as).getD j 0 = vj := by
    rw [List.getD_eq_getElem?_getD, hvj]
    rfl
  dsimp only
  rw [hgi, hgj, jlt_fin]
  exact decide_eq_true (y_coord_lt a as h hh vi vj
    (List.getElem?_mem hvi) (List.getElem?_mem hvj) hlt)

/-- C8 (amended): for every input of at least two samples, both renderer
variants place sample `i` at x-coordinate `i · (width / (n - 1))`; the
produced coordinates are unchanged under every affine transform
`v ↦ k·v + b` with positive scale `k > 0` (for `k ≤ 0` shape invariance
fails, see the counterexample); and, for a positive pixel height, a higher
sample value maps to a strictly smaller y-coordinate. -/
theorem c8_spacing_affine_inversion (a : ℚ) (as ph : List ℚ) (w h k b : ℚ)
    (hn : 2 ≤ (a :: as).length) (hk : 0 < k) (hh : 0 < h) :
    ((watchlistSparklinePoints (a :: as) ph w h).map Prod.fst =
        (List.range (a :: as).length).map
          (fun (i : ℕ) => JNum.fin ((i : ℚ) * (w / (((a :: as).length : ℚ) - 1)))) ∧
      (sparklineChartPoints (a :: as) w h).map Prod.fst =
        (List.range (a :: as).length).map
          (fun (i : ℕ) => JNum.fin ((i : ℚ) * (w / (((a :: as).length : ℚ) - 1))))) ∧
    (watchlistSparklinePoints ((a :: as).map (fun v => k * v + b)) ph w h =
        watchlistSparklinePoints (a :: as) ph w h ∧
      sparklineChartPoints ((a :: as).map (fun v => k * v + b)) w h =
        sparklineChartPoints (a :: as) w h) ∧
    (∀ (i j : ℕ) (vi vj : ℚ) (pi pj : JNum × JNum),
      (a :: as)[i]? = some vi → (a :: as)[j]? = some vj → vj < vi →
      (watchlistSparklinePoints (a :: as) ph w h)[i]? = some pi →
      (watchlistSparklinePoints (a :: as) ph w h)[j]? = some pj →
      jlt pi.2 pj.2 = true) ∧
    (∀ (i j : ℕ) (vi vj : ℚ) (pi pj : JNum × JNum),
      (a :: as)[i]? = some vi → (a :: as)[j]? = some vj → vj < vi →
      (sparklineChartPoints (a :: as) w h)[i]? = some pi →
      (sparklineChartPoints (a :: as) w h)[j]? = some pj →
      jlt pi.2 pj.2 = true) := by
  have hd : (((a :: as).length : ℚ) - 1) ≠ 0 := by
    have h2 : (2 : ℚ) ≤ ((a :: as).length : ℚ) := by exact_mod_cast hn
    linarith
  exact ⟨⟨pointsA_x a as ph w h hd, pointsB_x a as w h hd⟩,
         ⟨pointsA_affine a as ph w h k b hd hk, pointsB_affine a as w h k b hd hk⟩,
         fun i j vi vj pi pj h1 h2 h3 h4 h5 =>
           pointsA_y_lt a as ph w h hd hh i j vi vj pi pj h1 h2 h3 h4 h5,
         fun i j vi vj pi pj h1 h2 h3 h4 h5 =>
           pointsB_y_lt a as w h hd hh i j vi vj pi pj h1 h2 h3 h4 h5⟩

/-- Witness for C8 (amended) at the concrete input `[0, 1]` with the
transform `v ↦ 2·v + 3`. -/
theorem c8_spacing_affine_inversion_witness :
    watchlistSparklinePoints ([0, 1].map (fun v => 2 * v + 3)) [] 80 20 =
      watchlistSparklinePoints [0, 1] [] 80 20 :=
  (c8_spacing_affine_inversion 0 [1] [] 80 20 2 3
    (by norm_num) (by norm_num) (by norm_num)).2.1.1
